import Mathlib

/-!
Verification of the evo-arena game-theory engine: a shallow embedding of
`games.py`, `strategies.py` / `strategies/system/built_in.py`, and `engine.py`,
followed by theorems about the embedded operations.

Modelling conventions:
* Python floats are modelled as rationals (`ℚ`); the literal `0.2` is `mkRat 1 5`.
* Python exceptions are modelled by `Except Err`; each distinct `ValueError`
  site (and the reachable `KeyError` / `IndexError` sites) gets its own
  constructor.
* Python dicts are modelled as insertion-ordered association lists; `dlookup`
  returns the value at the first matching key.
* `random.random()` draws are modelled as explicit rational arguments: a match
  receives a stream `draws : ℕ → ℚ` and round `i` consumes `draws (2*i)` for
  player 1 and `draws (2*i+1)` for player 2 (the engine is single-threaded, so
  a sequential PRNG stream is exactly a reindexed explicit stream).
-/

deriving instance DecidableEq for Except

namespace EvoArena

/-- Errors raised by the embedded code (Python `ValueError` / `KeyError` /
`IndexError` sites). -/
inductive Err where
  /-- `games.py` `validate_move`: "Invalid move: ...". -/
  | invalidMove (move : String)
  /-- `games.py` `get_payoff`: dict lookup on a missing key (Python `KeyError`). -/
  | keyError
  /-- `engine.py`: "Unknown game: ...". -/
  | unknownGame (name : String)
  /-- `engine.py` `_play_match`: "Strats must be from: ...". -/
  | stratsMustBeFrom (names : List String)
  /-- `engine.py` `_get_strategy`: "Unknown strategy: ... Available: ...". -/
  | unknownStrategy (name : String) (available : List String)
  /-- `engine.py` `_noisy_decide`: "Noise must be in [0, 0.2] ...". -/
  | invalidParameter (msg : String)
  /-- `engine.py` `_noisy_decide`: `list(self.games.values())[0]` on an empty dict. -/
  | indexError
deriving DecidableEq, Repr

/-- First-match lookup in an association list (Python dict read `d[k]` /
`k in d`, with insertion order and unique keys in all actual uses). -/
def dlookup {α β : Type} [DecidableEq α] : List (α × β) → α → Option β
  | [], _ => none
  | p :: rest, k => if p.1 = k then some p.2 else dlookup rest k

/-- `games.py` `Game`: payoff matrix over ordered action pairs, ordered valid
actions (index 0 cooperative-like, index 1 defective-like), description. -/
structure Game where
  payoffs : List ((String × String) × (Int × Int))
  valid_actions : List String
  description : String := ""
deriving DecidableEq, Repr

/-- `games.py` `Game.validate_move`: raise `InvalidMove` unless the move is in
`valid_actions`. -/
def Game.validate_move (g : Game) (move : String) : Except Err Unit :=
  if move ∈ g.valid_actions then .ok () else .error (.invalidMove move)

/-- `games.py` `Game.get_payoff`: validate both moves, then look the ordered
pair up in the payoff dict (a missing key after validation is a `KeyError`). -/
def Game.get_payoff (g : Game) (p1_move p2_move : String) : Except Err (Int × Int) :=
  match g.validate_move p1_move with
  | .error err => .error err
  | .ok _ =>
    match g.validate_move p2_move with
    | .error err => .error err
    | .ok _ =>
      match dlookup g.payoffs (p1_move, p2_move) with
      | some p => .ok p
      | none => .error .keyError

/-- `AlwaysCooperate.decide` from `strategies/system/built_in.py`. -/
def AlwaysCooperate.decide (_opponent_history : List String) : String := "C"

/-- `AlwaysDefect.decide` from `strategies/system/built_in.py`. -/
def AlwaysDefect.decide (_opponent_history : List String) : String := "D"

/-- `TitForTat.decide` from `strategies/system/built_in.py`: cooperate first,
then mirror the opponent's last move (`opponent_history[-1]`). -/
def TitForTat.decide (opponent_history : List String) : String :=
  match opponent_history.getLast? with
  | none => "C"
  | some m => m

/-- `GrimTrigger.decide` from `strategies/system/built_in.py`: defect forever
once `'D'` has appeared in the opponent's history. -/
def GrimTrigger.decide (opponent_history : List String) : String :=
  if "D" ∈ opponent_history then "D" else "C"

/-- `ForgivingTitForTat.decide` from `strategies/custom/forgiving_tit_for_tat.py`:
TitForTat, but cooperate when the two most recent opponent moves are both `'D'`. -/
def ForgivingTitForTat.decide (opponent_history : List String) : String :=
  match opponent_history.getLast? with
  | none => "C"
  | some m =>
    if 2 ≤ opponent_history.length ∧
        opponent_history.drop (opponent_history.length - 2) = ["D", "D"] then "C"
    else m

/-- `STRATEGY_REGISTRY` as built by `strategies/registry.py` `load_strategies`:
`system/built_in.py` classes in `dir()` (alphabetical) order, then the
`custom/` strategy. A strategy instance is its `decide` function (the classes
are stateless). -/
def STRATEGY_REGISTRY : List (String × (List String → String)) :=
  [("AlwaysCooperate", AlwaysCooperate.decide),
   ("AlwaysDefect", AlwaysDefect.decide),
   ("GrimTrigger", GrimTrigger.decide),
   ("TitForTat", TitForTat.decide),
   ("ForgivingTitForTat", ForgivingTitForTat.decide)]

/-- `engine.py` `GameTheoryEngine` state after `__init__`: the games dict (in
config insertion order), the configured strategy-name list, default rounds. -/
structure GameTheoryEngine where
  games : List (String × Game)
  strategy_names : List String
  default_rounds : Int := 10

namespace GameTheoryEngine

/-- `engine.py` `_get_strategy`: registry lookup, `UnknownStrategy` listing the
known names when absent. -/
def get_strategy (name : String) : Except Err (List String → String) :=
  match dlookup STRATEGY_REGISTRY name with
  | none => .error (.unknownStrategy name (STRATEGY_REGISTRY.map Prod.fst))
  | some f => .ok f

/-- `engine.py` `_noisy_decide`: range-check the noise, take the strategy's
move, and with probability `noise` (draw below `noise`) flip to the first
differing action of the FIRST configured game (`list(self.games.values())[0]`),
falling back to the chosen move when no action differs. -/
def noisy_decide (e : GameTheoryEngine) (decide_fn : List String → String)
    (opp_history : List String) (noise : ℚ) (draw : ℚ) : Except Err String :=
  if ¬ (0 ≤ noise ∧ noise ≤ mkRat 1 5) then
    .error (.invalidParameter "Noise must be in [0, 0.2] for realistic error rates.")
  else
    let move := decide_fn opp_history
    if 0 < noise ∧ draw < noise then
      match e.games.head? with
      | none => .error .indexError
      | some g =>
        match (g.2.valid_actions.filter (fun a => a != move)).head? with
        | some alt => .ok alt
        | none => .ok move
    else .ok move

/-- The result dict of `engine.py` `_play_match`. -/
structure MatchResult where
  scores : Int × Int
  moves : List (String × String)
  strats : String × String
  rounds : Int
  noise : ℚ
deriving DecidableEq, Repr

/-- The mutable locals of the `_play_match` round loop. -/
structure MatchState where
  p1_moves : List String
  p2_moves : List String
  p1_score : Int
  p2_score : Int
  move_history : List (String × String)
deriving DecidableEq, Repr

/-- One iteration of the `_play_match` round loop (round index `i`, 0-based):
both noisy decisions on the histories as of the start of the round, history
updates, payoff lookup, score accumulation. Player 1 consumes draw `2*i`,
player 2 draw `2*i+1`. -/
def play_round (e : GameTheoryEngine) (game : Game)
    (s1 s2 : List String → String) (noise : ℚ) (draws : ℕ → ℚ)
    (i : ℕ) (st : MatchState) : Except Err MatchState :=
  match e.noisy_decide s1 st.p2_moves noise (draws (2 * i)) with
  | .error err => .error err
  | .ok p1_move =>
    match e.noisy_decide s2 st.p1_moves noise (draws (2 * i + 1)) with
    | .error err => .error err
    | .ok p2_move =>
      let st' : MatchState :=
        { st with p1_moves := st.p1_moves ++ [p1_move],
                  p2_moves := st.p2_moves ++ [p2_move],
                  move_history := st.move_history ++ [(p1_move, p2_move)] }
      match game.get_payoff p1_move p2_move with
      | .error err => .error err
      | .ok payoff =>
        .ok { st' with p1_score := st.p1_score + payoff.1,
                       p2_score := st.p2_score + payoff.2 }

/-- The `_play_match` round loop: run `remaining` more rounds starting at
round index `i`. `for round_num in range(1, rounds + 1)` is the call with
`i = 0` and `remaining = rounds.toNat` (an empty range when `rounds ≤ 0`). -/
def play_rounds (e : GameTheoryEngine) (game : Game)
    (s1 s2 : List String → String) (noise : ℚ) (draws : ℕ → ℚ) :
    ℕ → ℕ → MatchState → Except Err MatchState
  | _, 0, st => .ok st
  | i, remaining + 1, st =>
    match play_round e game s1 s2 noise draws i st with
    | .error err => .error err
    | .ok st' => play_rounds e game s1 s2 noise draws (i + 1) remaining st'

/-- `engine.py` `_play_match`: check the game name, check both strategy names
against the configured `strategy_names` list, resolve both strategies from the
registry, play the rounds, and return the result dict. -/
def play_match (e : GameTheoryEngine) (strat1_name strat2_name : String)
    (game_name : String) (rounds : Int) (noise : ℚ) (draws : ℕ → ℚ) :
    Except Err MatchResult :=
  match dlookup e.games game_name with
  | none => .error (.unknownGame game_name)
  | some game =>
    if strat1_name ∉ e.strategy_names ∨ strat2_name ∉ e.strategy_names then
      .error (.stratsMustBeFrom e.strategy_names)
    else
      match get_strategy strat1_name with
      | .error err => .error err
      | .ok s1 =>
        match get_strategy strat2_name with
        | .error err => .error err
        | .ok s2 =>
          match play_rounds e game s1 s2 noise draws 0 rounds.toNat
              ⟨[], [], 0, 0, []⟩ with
          | .error err => .error err
          | .ok st =>
            .ok { scores := (st.p1_score, st.p2_score),
                  moves := st.move_history,
                  strats := (strat1_name, strat2_name),
                  rounds := rounds,
                  noise := noise }

/-- `engine.py` `repeated_match`: `rounds = rounds or 100` (so 0 becomes the
default 100) and `noise = max(0.0, min(0.2, noise or 0.0))` (silent clamp into
[0, 0.2]), then delegate to `_play_match`. -/
def repeated_match (e : GameTheoryEngine) (game_name strat1_name strat2_name : String)
    (rounds : Int) (noise : ℚ) (draws : ℕ → ℚ) : Except Err MatchResult :=
  let rounds := if rounds = 0 then 100 else rounds
  let noise := max 0 (min (mkRat 1 5) noise)
  e.play_match strat1_name strat2_name game_name rounds noise draws

end GameTheoryEngine

/-- Coercion of an int match score into a float running total
(`total_scores[s1] += res["scores"][0]` mixes int into float). -/
def ratOfInt (n : Int) : ℚ := mkRat n 1

/-- Python dict write `d[k] += v`, order-preserving. In the tournament `k` is
always one of the keys `total_scores` was initialized with, so the
missing-key `KeyError` path of `total_scores[s1] +=` is unreachable and this
total update-if-present function is faithful. -/
def dictIncr (d : List (String × ℚ)) (k : String) (v : ℚ) : List (String × ℚ) :=
  d.map (fun p => if p.1 = k then (p.1, p.2 + v) else p)

/-- The dict comprehension `{s: 0.0 for s in strats}`: left-to-right insertion,
the first occurrence of a key fixes its position, every value is 0.0. -/
def dictFromKeys (keys : List String) : List (String × ℚ) :=
  keys.foldl (fun d s => if (d.map Prod.fst).contains s then d else d ++ [(s, 0)]) []

/-- The inner two loops of `round_robin_tournament`: every ordered pair
`(s1, s2)` of `strats × strats`, `s2` varying fastest. -/
def allPairs (strats : List String) : List (String × String) :=
  strats.flatMap (fun s1 => strats.map (fun s2 => (s1, s2)))

/-- The full tournament schedule: `repeats` passes over `allPairs` (the
`for rep in range(repeats)` loop; every pass runs the identical pair list). -/
def schedule (strats : List String) : ℕ → List (String × String)
  | 0 => []
  | r + 1 => allPairs strats ++ schedule strats r

namespace GameTheoryEngine

/-- The PRNG stream slice consumed by the `m`-th match of a tournament: each
match of `rounds` rounds consumes at most `2 * rounds` draws of the single
sequential stream, so match `m` reads from offset `2 * rounds.toNat * m`. -/
def streamFor (draws : ℕ → ℚ) (rounds : Int) (m : ℕ) : ℕ → ℚ :=
  fun j => draws (2 * rounds.toNat * m + j)

/-- The match loop of `round_robin_tournament`: play each scheduled pair in
order (`m` is the index of the next match in the overall schedule) and add the
row player's score (`res["scores"][0]`) to that strategy's running total. -/
def run_schedule (e : GameTheoryEngine) (game_name : String) (rounds : Int)
    (noise : ℚ) (draws : ℕ → ℚ) :
    List (String × String) → ℕ → List (String × ℚ) → Except Err (List (String × ℚ))
  | [], _, total_scores => .ok total_scores
  | pr :: rest, m, total_scores =>
    match e.play_match pr.1 pr.2 game_name rounds noise (streamFor draws rounds m) with
    | .error err => .error err
    | .ok res =>
      run_schedule e game_name rounds noise draws rest (m + 1)
        (dictIncr total_scores pr.1 (ratOfInt res.scores.1))

/-- The result dict of `round_robin_tournament`. -/
structure TournamentResult where
  total_scores : List (String × ℚ)
  ranking : List (String × ℚ)
deriving DecidableEq, Repr

/-- Stable descending insertion: place `x` before the first entry whose score
is not above `x`'s (so earlier entries win ties). -/
def insertDesc (x : String × ℚ) : List (String × ℚ) → List (String × ℚ)
  | [] => [x]
  | y :: ys => if x.2 < y.2 then y :: insertDesc x ys else x :: y :: ys

/-- `sorted(total_scores.items(), key=lambda x: x[1], reverse=True)`: Python's
sort is stable, and a stable descending-by-score permutation is unique, so
stable insertion sort is a faithful model. -/
def sortDesc : List (String × ℚ) → List (String × ℚ)
  | [] => []
  | x :: xs => insertDesc x (sortDesc xs)

/-- `engine.py` `round_robin_tournament`: initialize every configured strategy
name to 0.0, run every scheduled match accumulating row-player scores, and
rank by descending total. -/
def round_robin_tournament (e : GameTheoryEngine) (game_name : String)
    (rounds_per_match : Int) (repeats : Int) (noise : ℚ) (draws : ℕ → ℚ) :
    Except Err TournamentResult :=
  match e.run_schedule game_name rounds_per_match noise draws
      (schedule e.strategy_names repeats.toNat) 0 (dictFromKeys e.strategy_names) with
  | .error err => .error err
  | .ok total_scores =>
    .ok { total_scores := total_scores, ranking := sortDesc total_scores }

/-- The row player's score of the `m`-th scheduled match (0 when that match
fails; in the theorems every scheduled match succeeds). -/
def matchRowScore (e : GameTheoryEngine) (game_name : String) (rounds : Int)
    (noise : ℚ) (draws : ℕ → ℚ) (m : ℕ) (pr : String × String) : ℚ :=
  match e.play_match pr.1 pr.2 game_name rounds noise (streamFor draws rounds m) with
  | .ok res => ratOfInt res.scores.1
  | .error _ => 0

/-- Sum of the row player's scores over the scheduled matches whose row player
is `s` (match indices starting at `m`). -/
def rowSum (e : GameTheoryEngine) (game_name : String) (rounds : Int)
    (noise : ℚ) (draws : ℕ → ℚ) (sched : List (String × String)) (m : ℕ)
    (s : String) : ℚ :=
  (((List.enumFrom m sched).filter (fun pr => pr.2.1 == s)).map
    (fun pr => e.matchRowScore game_name rounds noise draws pr.1 pr.2)).sum

end GameTheoryEngine

/-- Python dict write `d[k] = v`: overwrite in place when the key exists,
append otherwise. -/
def dictInsert (d : List (String × ℚ)) (k : String) (v : ℚ) : List (String × ℚ) :=
  if (d.map Prod.fst).contains k then d.map (fun p => if p.1 = k then (p.1, v) else p)
  else d ++ [(k, v)]

/-- A dict comprehension: left-to-right insertion of the listed (key, value)
pairs into an empty dict. -/
def dictOfPairs (ps : List (String × ℚ)) : List (String × ℚ) :=
  ps.foldl (fun d p => dictInsert d p.1 p.2) []

/-- The per-generation frequency dict of `evolutionary_simulation`
(engine.py lines 335-336):
`{strat_list[i]: idx_counts.count(i) / pop_size for i in range(n_strats)}`,
where `idx_counts` is the list of the population's genes. -/
def freq_of (strat_list : List String) (idx_counts : List ℕ) (pop_size : ℕ) :
    List (String × ℚ) :=
  dictOfPairs ((List.enumFrom 0 strat_list).map
    (fun p => (p.2, (idx_counts.count p.1 : ℚ) / (pop_size : ℚ))))

/-- The Prisoner's Dilemma game of the repository's `config.json` /
`tests/engine_test.py` mock config. -/
def PD : Game :=
  { payoffs := [(("C", "C"), (3, 3)), (("C", "D"), (0, 5)),
                (("D", "C"), (5, 0)), (("D", "D"), (1, 1))],
    valid_actions := ["C", "D"],
    description := "" }

/-- A second game over the action alphabet `["C", "E"]`, used to exhibit the
noise-flip behaviour on an engine whose first configured game differs from the
game being played. -/
def CE : Game :=
  { payoffs := [(("C", "C"), (1, 1)), (("C", "E"), (0, 2)),
                (("E", "C"), (2, 0)), (("E", "E"), (1, 1))],
    valid_actions := ["C", "E"],
    description := "" }

/-- A one-game engine over PD with the four built-in strategy names, matching
the mock config of `tests/engine_test.py` (default_rounds 2). -/
def E1 : GameTheoryEngine :=
  { games := [("PD", PD)],
    strategy_names := ["AlwaysCooperate", "AlwaysDefect", "TitForTat", "GrimTrigger"],
    default_rounds := 2 }

/-- A two-game engine: PD is the first configured game, CE the second. -/
def E2 : GameTheoryEngine :=
  { games := [("PD", PD), ("CE", CE)],
    strategy_names := ["AlwaysCooperate", "AlwaysDefect", "TitForTat", "GrimTrigger"],
    default_rounds := 10 }

/-- The concrete tournament result of `E1` with one repeat, one round per
match and zero noise: AlwaysDefect's row scores 5+1+5+5, every other row
3+0+3+3; ties keep the configured order. -/
def RES1 : GameTheoryEngine.TournamentResult :=
  { total_scores := [("AlwaysCooperate", ratOfInt 9), ("AlwaysDefect", ratOfInt 16),
                     ("TitForTat", ratOfInt 9), ("GrimTrigger", ratOfInt 9)],
    ranking := [("AlwaysDefect", ratOfInt 16), ("AlwaysCooperate", ratOfInt 9),
                ("TitForTat", ratOfInt 9), ("GrimTrigger", ratOfInt 9)] }

/-- C1: over a game whose payoff dict covers `valid_actions²`, `get_payoff`
succeeds with the defined pair on every valid ordered pair; with an invalid
move in either seat it fails with `InvalidMove` (the first seat's invalid move
is the one reported), never with the missing-key condition. -/
theorem get_payoff_total_on_valid_and_invalidMove_on_invalid (g : Game)
    (hcomplete : ∀ a ∈ g.valid_actions, ∀ b ∈ g.valid_actions,
      (dlookup g.payoffs (a, b)).isSome) :
    (∀ a ∈ g.valid_actions, ∀ b ∈ g.valid_actions,
      ∃ p, g.get_payoff a b = .ok p ∧ dlookup g.payoffs (a, b) = some p)
    ∧ (∀ x, x ∉ g.valid_actions →
        ∀ y, g.get_payoff x y = .error (.invalidMove x)
          ∧ (∃ m, m ∉ g.valid_actions ∧ g.get_payoff y x = .error (.invalidMove m))
          ∧ g.get_payoff y x ≠ .error .keyError) := by
  constructor
  · intro a ha b hb
    have h := hcomplete a ha b hb
    rcases hp : dlookup g.payoffs (a, b) with _ | p
    · rw [hp] at h; simp [Option.isSome] at h
    · refine ⟨p, ?_, rfl⟩
      simp [Game.get_payoff, Game.validate_move, ha, hb, hp]
  · intro x hx y
    refine ⟨?_, ?_, ?_⟩
    · simp [Game.get_payoff, Game.validate_move, hx]
    · by_cases hy : y ∈ g.valid_actions
      · exact ⟨x, hx, by simp [Game.get_payoff, Game.validate_move, hx, hy]⟩
      · exact ⟨y, hy, by simp [Game.get_payoff, Game.validate_move, hy]⟩
    · by_cases hy : y ∈ g.valid_actions
      · simp [Game.get_payoff, Game.validate_move, hx, hy]
      · simp [Game.get_payoff, Game.validate_move, hy]

/-- C1 witness: the C1 theorem instantiated on the concrete PD game and its
concrete valid/invalid moves. -/
theorem get_payoff_total_on_valid_and_invalidMove_on_invalid_witness :
    (PD.get_payoff "C" "D" = .ok (0, 5))
    ∧ PD.get_payoff "X" "C" = .error (.invalidMove "X")
    ∧ PD.get_payoff "C" "X" ≠ .error .keyError := by
  have h := get_payoff_total_on_valid_and_invalidMove_on_invalid PD (by decide)
  have h1 := h.1 "C" (by decide) "D" (by decide)
  have h2 := h.2 "X" (by decide) "C"
  refine ⟨?_, h2.1, h2.2.2⟩
  rcases h1 with ⟨p, hok, hlook⟩
  have : p = (0, 5) := by
    have : dlookup PD.payoffs ("C", "D") = some (0, 5) := by decide
    rw [this] at hlook; exact (Option.some_injective _ hlook.symm)
  rw [this] at hok; exact hok

/-- Helper: `_noisy_decide` rejects any noise outside [0, 0.2] before doing
anything else. -/
lemma noisy_decide_out_of_range (e : GameTheoryEngine)
    (decide_fn : List String → String) (opp_history : List String)
    (noise draw : ℚ) (hnoise : noise < 0 ∨ mkRat 1 5 < noise) :
    e.noisy_decide decide_fn opp_history noise draw =
      .error (.invalidParameter
        "Noise must be in [0, 0.2] for realistic error rates.") := by
  have hnot : ¬ (0 ≤ noise ∧ noise ≤ mkRat 1 5) := by
    rcases hnoise with h | h
    · exact fun hc => absurd hc.1 (not_le.mpr h)
    · exact fun hc => absurd hc.2 (not_le.mpr h)
  unfold GameTheoryEngine.noisy_decide
  rw [if_pos hnot]

/-- C2: `_noisy_decide` with zero noise is the identity on the strategy's
decision for every engine, strategy, history and draw; with noise outside
[0, 0.2] it fails with `InvalidParameter` regardless of the other arguments. -/
theorem noisy_decide_zero_identity_and_range_check (e : GameTheoryEngine)
    (decide_fn : List String → String) (opp_history : List String) (draw : ℚ) :
    e.noisy_decide decide_fn opp_history 0 draw = .ok (decide_fn opp_history)
    ∧ (∀ noise : ℚ, noise < 0 ∨ mkRat 1 5 < noise →
        e.noisy_decide decide_fn opp_history noise draw =
          .error (.invalidParameter
            "Noise must be in [0, 0.2] for realistic error rates.")) := by
  constructor
  · simp [GameTheoryEngine.noisy_decide]
  · intro noise hnoise
    exact noisy_decide_out_of_range e decide_fn opp_history noise draw hnoise

/-- C2 witness: the C2 theorem applied to the concrete engine `E1`, the
AlwaysCooperate decision function, and noise 1/2 for the failing branch. -/
theorem noisy_decide_zero_identity_and_range_check_witness :
    E1.noisy_decide AlwaysCooperate.decide [] 0 (mkRat 1 2) = .ok "C"
    ∧ E1.noisy_decide AlwaysCooperate.decide [] (mkRat 1 2) (mkRat 1 2) =
        .error (.invalidParameter
          "Noise must be in [0, 0.2] for realistic error rates.") := by
  have h := noisy_decide_zero_identity_and_range_check E1 AlwaysCooperate.decide [] (mkRat 1 2)
  exact ⟨h.1, h.2 (mkRat 1 2) (Or.inr (by norm_num))⟩

/-- C8: GrimTrigger is monotonic-punitive: any history containing `"D"` yields
`"D"`, and so does every extension (superlist) of that history, since the
occurrence of `"D"` is preserved. -/
theorem grimTrigger_monotonic_punitive (h : List String) (hD : "D" ∈ h) :
    GrimTrigger.decide h = "D"
    ∧ ∀ h' : List String, h.Sublist h' → GrimTrigger.decide h' = "D" := by
  constructor
  · simp [GrimTrigger.decide, hD]
  · intro h' hsub
    have : "D" ∈ h' := hsub.mem hD
    simp [GrimTrigger.decide, this]

/-- C8 witness: the C8 theorem at history `["C", "D"]` and its extension
`["C", "D", "C"]`. -/
theorem grimTrigger_monotonic_punitive_witness :
    GrimTrigger.decide ["C", "D"] = "D"
    ∧ GrimTrigger.decide ["C", "D", "C"] = "D" := by
  have h := grimTrigger_monotonic_punitive ["C", "D"] (by decide)
  exact ⟨h.1, h.2 ["C", "D", "C"] (by decide)⟩

/-- C10: `_play_match` never succeeds when either strategy name is outside the
engine's configured `strategy_names` list; once the game name is known it
fails with the configuration error listing the allowed names; and the
registry's `UnknownStrategy` error is only ever reached for names that passed
the configuration-membership check. -/
theorem play_match_configured_list_precedes_registry
    (e : GameTheoryEngine) (s1 s2 game_name : String) (rounds : Int)
    (noise : ℚ) (draws : ℕ → ℚ) :
    ((s1 ∉ e.strategy_names ∨ s2 ∉ e.strategy_names) →
      (∀ r, e.play_match s1 s2 game_name rounds noise draws ≠ .ok r)
      ∧ (∀ game, dlookup e.games game_name = some game →
          e.play_match s1 s2 game_name rounds noise draws =
            .error (.stratsMustBeFrom e.strategy_names)))
    ∧ (∀ name avail,
        e.play_match s1 s2 game_name rounds noise draws =
          .error (.unknownStrategy name avail) →
        s1 ∈ e.strategy_names ∧ s2 ∈ e.strategy_names) := by
  constructor
  · intro hmem
    constructor
    · intro r hok
      rcases hg : dlookup e.games game_name with _ | game
      · simp [GameTheoryEngine.play_match, hg] at hok
      · simp [GameTheoryEngine.play_match, hg, hmem] at hok
    · intro game hg
      simp [GameTheoryEngine.play_match, hg, hmem]
  · intro name avail heq
    by_cases h1 : s1 ∈ e.strategy_names
    · by_cases h2 : s2 ∈ e.strategy_names
      · exact ⟨h1, h2⟩
      · exfalso
        rcases hg : dlookup e.games game_name with _ | game
        · simp [GameTheoryEngine.play_match, hg] at heq
        · simp [GameTheoryEngine.play_match, hg, h2] at heq
    · exfalso
      rcases hg : dlookup e.games game_name with _ | game
      · simp [GameTheoryEngine.play_match, hg] at heq
      · simp [GameTheoryEngine.play_match, hg, h1] at heq

/-- C10 witness: the C10 theorem at the concrete engine `E1` with
`"ForgivingTitForTat"`, a name the registry can resolve but which is not in
`E1`'s configured strategy list. -/
theorem play_match_configured_list_precedes_registry_witness :
    (dlookup STRATEGY_REGISTRY "ForgivingTitForTat").isSome = true
    ∧ E1.play_match "ForgivingTitForTat" "TitForTat" "PD" 2 0 (fun _ => 1) =
        .error (.stratsMustBeFrom E1.strategy_names) := by
  have h := play_match_configured_list_precedes_registry E1 "ForgivingTitForTat"
    "TitForTat" "PD" 2 0 (fun _ => 1)
  exact ⟨rfl, (h.1 (Or.inl (by decide))).2 PD rfl⟩

/-- C3 counterexample: `repeated_match` with the out-of-range noise 1/2 does
NOT fail with `InvalidParameter`: it silently clamps the noise to 0.2 (visible
in the result's `noise` field) and completes the match. -/
theorem repeated_match_clamps_out_of_range_noise :
    E1.repeated_match "PD" "TitForTat" "AlwaysDefect" 2 (mkRat 1 2) (fun _ => mkRat 9 10) =
      .ok { scores := (1, 6), moves := [("C", "D"), ("D", "D")],
            strats := ("TitForTat", "AlwaysDefect"), rounds := 2, noise := mkRat 1 5 } := by
  decide

/-- C3 amended: noise outside [0, 0.2] is fatal with `InvalidParameter` in
`_play_match` (hence in the tournament and evolution paths, which pass noise
through unchanged) as soon as one round is played, but the `repeated_match`
entry point first clamps noise into [0, 0.2] (`max(0.0, min(0.2, noise))`), so
an out-of-range noise there is silently clamped, never fatal. -/
theorem play_match_noise_fatal_but_repeated_match_clamps
    (e : GameTheoryEngine) (s1 s2 game_name : String) (game : Game)
    (rounds : Int) (noise : ℚ) (draws : ℕ → ℚ)
    (hg : dlookup e.games game_name = some game)
    (h1 : s1 ∈ e.strategy_names) (h2 : s2 ∈ e.strategy_names)
    (hs1 : ∃ f, dlookup STRATEGY_REGISTRY s1 = some f)
    (hs2 : ∃ f, dlookup STRATEGY_REGISTRY s2 = some f)
    (hr : 1 ≤ rounds)
    (hnoise : noise < 0 ∨ mkRat 1 5 < noise) :
    e.play_match s1 s2 game_name rounds noise draws =
      .error (.invalidParameter
        "Noise must be in [0, 0.2] for realistic error rates.")
    ∧ ∀ (rounds' : Int) (noise' : ℚ),
        e.repeated_match game_name s1 s2 rounds' noise' draws =
          e.play_match s1 s2 game_name (if rounds' = 0 then 100 else rounds')
            (max 0 (min (mkRat 1 5) noise')) draws
        ∧ 0 ≤ max 0 (min (mkRat 1 5) noise')
        ∧ max 0 (min (mkRat 1 5) noise') ≤ mkRat 1 5 := by
  obtain ⟨f1, hf1⟩ := hs1
  obtain ⟨f2, hf2⟩ := hs2
  constructor
  · have hmem : ¬ (s1 ∉ e.strategy_names ∨ s2 ∉ e.strategy_names) := by
      push_neg
      exact ⟨h1, h2⟩
    obtain ⟨k, hk⟩ : ∃ k, rounds.toNat = k + 1 := ⟨rounds.toNat - 1, by omega⟩
    simp only [GameTheoryEngine.play_match, hg, GameTheoryEngine.get_strategy,
      hf1, hf2, if_neg hmem, hk, GameTheoryEngine.play_rounds,
      GameTheoryEngine.play_round,
      noisy_decide_out_of_range e f1 _ noise _ hnoise]
  · intro rounds' noise'
    refine ⟨rfl, le_max_left 0 _, max_le (by norm_num) (min_le_left _ _)⟩

/-- C3 amended witness: the amended C3 theorem at the concrete engine `E1`
with noise 1/2. -/
theorem play_match_noise_fatal_but_repeated_match_clamps_witness :
    E1.play_match "TitForTat" "AlwaysDefect" "PD" 2 (mkRat 1 2) (fun _ => mkRat 9 10) =
      .error (.invalidParameter
        "Noise must be in [0, 0.2] for realistic error rates.")
    ∧ E1.repeated_match "PD" "TitForTat" "AlwaysDefect" 2 (mkRat 1 2) (fun _ => mkRat 9 10) =
        E1.play_match "TitForTat" "AlwaysDefect" "PD"
          (if (2 : Int) = 0 then 100 else 2) (max 0 (min (mkRat 1 5) (mkRat 1 2)))
          (fun _ => mkRat 9 10) := by
  have h := play_match_noise_fatal_but_repeated_match_clamps E1 "TitForTat"
    "AlwaysDefect" "PD" PD 2 (mkRat 1 2) (fun _ => mkRat 9 10) rfl (by decide) (by decide)
    ⟨TitForTat.decide, rfl⟩ ⟨AlwaysDefect.decide, rfl⟩ (by norm_num)
    (Or.inr (by norm_num))
  exact ⟨h.1, (h.2 2 (mkRat 1 2)).1⟩

/-- C4 counterexample: `_play_match` with `rounds = 0` does not fail with
`InvalidParameter`; it completes and returns a result with zero scores and an
empty move trace. -/
theorem play_match_zero_rounds_completes :
    E1.play_match "TitForTat" "AlwaysDefect" "PD" 0 0 (fun _ => 1) =
      .ok { scores := (0, 0), moves := [],
            strats := ("TitForTat", "AlwaysDefect"), rounds := 0, noise := 0 } := by
  decide

/-- C4 amended: `_play_match` performs no validation of `rounds`: for every
non-positive round count the round loop body never runs and the call completes
with zero scores and an empty move history (only `repeated_match` remaps the
single value `rounds = 0` to the default 100 before delegating). -/
theorem play_match_nonpositive_rounds_completes
    (e : GameTheoryEngine) (s1 s2 game_name : String) (game : Game)
    (rounds : Int) (noise : ℚ) (draws : ℕ → ℚ)
    (hg : dlookup e.games game_name = some game)
    (h1 : s1 ∈ e.strategy_names) (h2 : s2 ∈ e.strategy_names)
    (hs1 : ∃ f, dlookup STRATEGY_REGISTRY s1 = some f)
    (hs2 : ∃ f, dlookup STRATEGY_REGISTRY s2 = some f)
    (hr : rounds ≤ 0) :
    e.play_match s1 s2 game_name rounds noise draws =
      .ok { scores := (0, 0), moves := [], strats := (s1, s2),
            rounds := rounds, noise := noise } := by
  obtain ⟨f1, hf1⟩ := hs1
  obtain ⟨f2, hf2⟩ := hs2
  have hmem : ¬ (s1 ∉ e.strategy_names ∨ s2 ∉ e.strategy_names) := by
    push_neg
    exact ⟨h1, h2⟩
  have htn : rounds.toNat = 0 := by omega
  simp only [GameTheoryEngine.play_match, hg, GameTheoryEngine.get_strategy,
    hf1, hf2, if_neg hmem, htn, GameTheoryEngine.play_rounds]

/-- C4 amended witness: the amended C4 theorem at the concrete engine `E1`
with `rounds = -3`. -/
theorem play_match_nonpositive_rounds_completes_witness :
    E1.play_match "TitForTat" "AlwaysDefect" "PD" (-3) 0 (fun _ => 1) =
      .ok { scores := (0, 0), moves := [],
            strats := ("TitForTat", "AlwaysDefect"), rounds := -3, noise := 0 } := by
  exact play_match_nonpositive_rounds_completes E1 "TitForTat" "AlwaysDefect"
    "PD" PD (-3) 0 (fun _ => 1) rfl (by decide) (by decide)
    ⟨TitForTat.decide, rfl⟩ ⟨AlwaysDefect.decide, rfl⟩ (by norm_num)

/-- C5 counterexample: in a match played on the game `"CE"` (valid actions
`["C", "E"]`), a firing noise event flips `"C"` to `"D"` — the first differing
action of the FIRST configured game (PD), not of the current match's game; the
flipped move is not even in CE's action set and the match dies with
`InvalidMove "D"` instead of playing the claimed flip `"E"`. -/
theorem noise_flip_uses_first_configured_game :
    E2.noisy_decide AlwaysCooperate.decide [] (mkRat 1 5) 0 = .ok "D"
    ∧ ("D" ∉ CE.valid_actions)
    ∧ E2.play_match "AlwaysCooperate" "AlwaysCooperate" "CE" 1 (mkRat 1 5) (fun _ => 0) =
        .error (.invalidMove "D") := by
  decide

/-- C5 amended: when the noise event fires (noise in (0, 0.2] and draw below
noise), `_noisy_decide` returns the first action differing from the chosen
move among the valid actions of the engine's FIRST configured game, in their
declared order (the chosen move itself when none differs), regardless of which
game the surrounding match is playing; when the event does not fire, the
chosen move is returned unchanged. -/
theorem noisy_decide_flip_spec (e : GameTheoryEngine)
    (decide_fn : List String → String) (opp_history : List String)
    (noise draw : ℚ) (g0 : String × Game)
    (hrange : 0 ≤ noise ∧ noise ≤ mkRat 1 5) (hfirst : e.games.head? = some g0) :
    (0 < noise ∧ draw < noise →
      e.noisy_decide decide_fn opp_history noise draw =
        .ok (((g0.2.valid_actions.filter
            (fun a => a != decide_fn opp_history)).head?).getD
          (decide_fn opp_history)))
    ∧ (¬ (0 < noise ∧ draw < noise) →
        e.noisy_decide decide_fn opp_history noise draw =
          .ok (decide_fn opp_history)) := by
  constructor
  · intro hfire
    unfold GameTheoryEngine.noisy_decide
    rw [if_neg (not_not_intro hrange), if_pos hfire, hfirst]
    rcases hh : (g0.2.valid_actions.filter
        (fun a => a != decide_fn opp_history)).head? with _ | alt
    · simp [hh]
    · simp [hh]
  · intro hnofire
    unfold GameTheoryEngine.noisy_decide
    rw [if_neg (not_not_intro hrange), if_neg hnofire]

/-- C5 amended witness: the amended C5 theorem at the concrete engine `E2`
(first game PD), showing the fired flip result and the unfired identity. -/
theorem noisy_decide_flip_spec_witness :
    E2.noisy_decide AlwaysCooperate.decide [] (mkRat 1 5) (mkRat 1 10) = .ok "D"
    ∧ E2.noisy_decide AlwaysCooperate.decide [] (mkRat 1 5) (mkRat 1 2) = .ok "C" := by
  constructor
  · have h := (noisy_decide_flip_spec E2 AlwaysCooperate.decide [] (mkRat 1 5) (mkRat 1 10)
      ("PD", PD) ⟨by norm_num, by norm_num⟩ rfl).1 ⟨by norm_num, by norm_num⟩
    exact h.trans (by decide)
  · have h := (noisy_decide_flip_spec E2 AlwaysCooperate.decide [] (mkRat 1 5) (mkRat 1 2)
      ("PD", PD) ⟨by norm_num, by norm_num⟩ rfl).2
      (by rintro ⟨-, hlt⟩; norm_num at hlt)
    exact h.trans (by decide)

/-- Helper: `dictIncr` leaves the key sequence of a dict unchanged. -/
lemma dictIncr_keys (d : List (String × ℚ)) (k : String) (v : ℚ) :
    (dictIncr d k v).map Prod.fst = d.map Prod.fst := by
  induction d with
  | nil => rfl
  | cons p rest ih =>
    simp only [dictIncr, List.map_cons] at ih ⊢
    rw [ih]
    by_cases hk : p.1 = k <;> simp [hk]

/-- Helper: reading a dict after `dictIncr`: the entry at `k` grows by `v`,
every other entry is unchanged. -/
lemma dlookup_dictIncr (d : List (String × ℚ)) (k s : String) (v : ℚ) :
    dlookup (dictIncr d k v) s =
      (dlookup d s).map (fun x => if s = k then x + v else x) := by
  induction d with
  | nil => rfl
  | cons p rest ih =>
    by_cases hk : p.1 = k
    · by_cases hs : p.1 = s
      · have hsk : s = k := by rw [← hs, hk]
        simp [dictIncr, dlookup, hk, hs, hsk]
      · simp only [dictIncr, List.map_cons, if_pos hk]
        rw [show dlookup ((p.1, p.2 + v) :: List.map _ rest) s =
          dlookup (List.map (fun p => if p.1 = k then (p.1, p.2 + v) else p) rest) s
          from by simp [dlookup, hs]]
        simpa [dictIncr, dlookup, hs] using ih
    · by_cases hs : p.1 = s
      · have hsk : ¬ s = k := fun hc => hk (hs.trans hc)
        simp [dictIncr, dlookup, hk, hs, hsk]
      · simp only [dictIncr, List.map_cons, if_neg hk]
        rw [show dlookup (p :: List.map _ rest) s =
          dlookup (List.map (fun p => if p.1 = k then (p.1, p.2 + v) else p) rest) s
          from by simp [dlookup, hs]]
        simpa [dictIncr, dlookup, hs] using ih

/-- Helper: over distinct keys, the `{s: 0.0 for s in keys}` comprehension is
just the ordered pair list with zero values. -/
lemma dictFromKeys_eq (keys : List String) (h : keys.Nodup) :
    dictFromKeys keys = keys.map (fun s => (s, 0)) := by
  suffices H : ∀ (ks : List String) (d : List (String × ℚ)), ks.Nodup →
      (∀ s ∈ ks, s ∉ d.map Prod.fst) →
      ks.foldl (fun d s => if (d.map Prod.fst).contains s then d else d ++ [(s, 0)]) d =
        d ++ ks.map (fun s => (s, 0)) by
    simpa [dictFromKeys] using H keys [] h (by simp)
  intro ks
  induction ks with
  | nil => intro d _ _; simp
  | cons a t ih =>
    intro d hnd hd
    have ha : a ∉ d.map Prod.fst := hd a (by simp)
    have hcontains : (d.map Prod.fst).contains a = false := by simpa using ha
    have step : (if (d.map Prod.fst).contains a = true then d else d ++ [(a, (0 : ℚ))]) =
        d ++ [(a, 0)] := by
      rw [hcontains]
      simp
    rw [List.foldl_cons]
    simp only [step]
    rw [ih (d ++ [(a, 0)]) (List.nodup_cons.mp hnd).2]
    · simp
    · intro s hs
      simp only [List.map_append, List.mem_append]
      rintro (hsd | hsa)
      · exact hd s (by simp [hs]) hsd
      · simp at hsa
        exact (List.nodup_cons.mp hnd).1 (hsa ▸ hs)

/-- Helper: reading the zero-initialized dict at a present key. -/
lemma dlookup_map_zero (keys : List String) (s : String) (h : s ∈ keys) :
    dlookup (keys.map (fun t => (t, (0 : ℚ)))) s = some 0 := by
  induction keys with
  | nil => simp at h
  | cons a t ih =>
    by_cases ha : a = s
    · simp [dlookup, ha]
    · have : s ∈ t := by
        rcases List.mem_cons.mp h with h' | h'
        · exact absurd h'.symm ha
        · exact h'
      simp [dlookup, ha, ih this]

/-- Helper: the inner pair loop produces `|l| * |strats|` pairs. -/
lemma length_pairLoop (l strats : List String) :
    (l.flatMap (fun s1 => strats.map (fun s2 => (s1, s2)))).length =
      l.length * strats.length := by
  induction l with
  | nil => simp
  | cons a t ih =>
    simp [List.flatMap_cons, ih, Nat.succ_mul]
    ring

/-- Helper: the schedule of `r` repeats over `strats` has `r * |strats|²`
entries. -/
lemma length_schedule (strats : List String) (r : ℕ) :
    (schedule strats r).length = r * strats.length ^ 2 := by
  induction r with
  | zero => simp [schedule]
  | succ n ih =>
    simp only [schedule, List.length_append, ih, allPairs, length_pairLoop]
    ring

/-- Helper: occurrences of a fixed pair in one row of the pair loop. -/
lemma count_row (s1 : String) (strats : List String) (a b : String) :
    (strats.map (fun s2 => (s1, s2))).count (a, b) =
      if s1 = a then strats.count b else 0 := by
  induction strats with
  | nil => simp
  | cons c t ih =>
    simp only [List.map_cons, List.count_cons, ih]
    by_cases h1 : s1 = a
    · by_cases h2 : c = b <;> simp [h1, h2, Prod.ext_iff]
    · simp [h1, Prod.ext_iff]

/-- Helper: occurrences of a fixed pair in the full pair loop. -/
lemma count_pairLoop (l strats : List String) (a b : String) :
    (l.flatMap (fun s1 => strats.map (fun s2 => (s1, s2)))).count (a, b) =
      l.count a * strats.count b := by
  induction l with
  | nil => simp
  | cons c t ih =>
    simp only [List.flatMap_cons, List.count_append, ih, count_row, List.count_cons]
    by_cases h : c = a
    · simp [h]
      ring
    · simp [h]

/-- Helper: each ordered pair of configured strategies is scheduled exactly
once per repeat. -/
lemma count_schedule (strats : List String) (r : ℕ) (a b : String)
    (hnd : strats.Nodup) (ha : a ∈ strats) (hb : b ∈ strats) :
    (schedule strats r).count (a, b) = r := by
  induction r with
  | zero => rfl
  | succ n ih =>
    simp only [schedule, List.count_append, ih, allPairs, count_pairLoop,
      List.count_eq_one_of_mem hnd ha, List.count_eq_one_of_mem hnd hb]
    omega

/-- Helper: `rowSum` over a cons schedule: the head match contributes its row
score exactly when its row player is `s`. -/
lemma rowSum_cons (e : GameTheoryEngine) (gn : String) (rounds : Int) (noise : ℚ)
    (draws : ℕ → ℚ) (pr : String × String) (rest : List (String × String))
    (m : ℕ) (s : String) :
    e.rowSum gn rounds noise draws (pr :: rest) m s =
      (if pr.1 = s then e.matchRowScore gn rounds noise draws m pr else 0)
      + e.rowSum gn rounds noise draws rest (m + 1) s := by
  simp only [GameTheoryEngine.rowSum, List.enumFrom_cons, List.filter_cons]
  by_cases h : pr.1 = s
  · simp [h]
  · simp [h]

/-- Helper: a successful `run_schedule` leaves the key sequence of the score
dict unchanged. -/
lemma run_schedule_keys (e : GameTheoryEngine) (gn : String) (rounds : Int)
    (noise : ℚ) (draws : ℕ → ℚ) :
    ∀ (sched : List (String × String)) (m : ℕ) (scores final : List (String × ℚ)),
    e.run_schedule gn rounds noise draws sched m scores = .ok final →
    final.map Prod.fst = scores.map Prod.fst := by
  intro sched
  induction sched with
  | nil =>
    intro m scores final h
    simp only [GameTheoryEngine.run_schedule, Except.ok.injEq] at h
    rw [h]
  | cons pr rest ih =>
    intro m scores final h
    simp only [GameTheoryEngine.run_schedule] at h
    cases hp : e.play_match pr.1 pr.2 gn rounds noise
        (GameTheoryEngine.streamFor draws rounds m) with
    | error err => rw [hp] at h; simp at h
    | ok res =>
      rw [hp] at h
      simp only at h
      have := ih (m + 1) (dictIncr scores pr.1 (ratOfInt res.scores.1)) final h
      rw [this, dictIncr_keys]

/-- Helper: when every scheduled match succeeds, `run_schedule` succeeds and
each strategy's total grows by exactly the sum of the row-player scores of the
scheduled matches whose row player it is. -/
lemma run_schedule_spec (e : GameTheoryEngine) (gn : String) (rounds : Int)
    (noise : ℚ) (draws : ℕ → ℚ) :
    ∀ (sched : List (String × String)) (m : ℕ) (scores : List (String × ℚ)),
    (∀ pr ∈ List.enumFrom m sched,
      (e.play_match pr.2.1 pr.2.2 gn rounds noise
        (GameTheoryEngine.streamFor draws rounds pr.1)).isOk = true) →
    ∃ final, e.run_schedule gn rounds noise draws sched m scores = .ok final ∧
      ∀ s val, dlookup scores s = some val →
        dlookup final s = some (val + e.rowSum gn rounds noise draws sched m s) := by
  intro sched
  induction sched with
  | nil =>
    intro m scores _
    refine ⟨scores, rfl, ?_⟩
    intro s val hval
    rw [hval]
    simp [GameTheoryEngine.rowSum]
  | cons pr rest ih =>
    intro m scores hsucc
    have hhead := hsucc (m, pr) (by simp [List.enumFrom_cons])
    cases hp : e.play_match pr.1 pr.2 gn rounds noise
        (GameTheoryEngine.streamFor draws rounds m) with
    | error err => rw [hp] at hhead; simp [Except.isOk, Except.toBool] at hhead
    | ok res =>
      have htail : ∀ pr' ∈ List.enumFrom (m + 1) rest,
          (e.play_match pr'.2.1 pr'.2.2 gn rounds noise
            (GameTheoryEngine.streamFor draws rounds pr'.1)).isOk = true := by
        intro pr' h'
        exact hsucc pr' (by simp [List.enumFrom_cons, h'])
      obtain ⟨final, hfin, hlook⟩ :=
        ih (m + 1) (dictIncr scores pr.1 (ratOfInt res.scores.1)) htail
      refine ⟨final, ?_, ?_⟩
      · simp only [GameTheoryEngine.run_schedule, hp]
        exact hfin
      · intro s val hval
        have hval' : dlookup (dictIncr scores pr.1 (ratOfInt res.scores.1)) s =
            some (if s = pr.1 then val + ratOfInt res.scores.1 else val) := by
          rw [dlookup_dictIncr, hval]
          by_cases h : s = pr.1
          · simp [h]
          · simp [h]
        have hfl := hlook s _ hval'
        rw [hfl, rowSum_cons]
        have hm : e.matchRowScore gn rounds noise draws m pr = ratOfInt res.scores.1 := by
          simp [GameTheoryEngine.matchRowScore, hp]
        by_cases h : s = pr.1
        · have h' : pr.1 = s := h.symm
          rw [if_pos h, if_pos h', hm]
          simp only [Option.some.injEq]
          ring
        · have h' : ¬ pr.1 = s := fun hc => h hc.symm
          rw [if_neg h, if_neg h']
          simp only [Option.some.injEq]
          ring

/-- Helper: membership in a stable descending insertion. -/
lemma mem_insertDesc (x z : String × ℚ) (l : List (String × ℚ)) :
    z ∈ GameTheoryEngine.insertDesc x l ↔ z = x ∨ z ∈ l := by
  induction l with
  | nil => simp [GameTheoryEngine.insertDesc]
  | cons y ys ih =>
    simp only [GameTheoryEngine.insertDesc]
    by_cases h : x.2 < y.2
    · rw [if_pos h]
      simp only [List.mem_cons, ih]
      tauto
    · rw [if_neg h]
      simp only [List.mem_cons]

/-- Helper: stable descending insertion preserves descending sortedness. -/
lemma pairwise_insertDesc (x : String × ℚ) (l : List (String × ℚ))
    (hl : l.Pairwise (fun a b => b.2 ≤ a.2)) :
    (GameTheoryEngine.insertDesc x l).Pairwise (fun a b => b.2 ≤ a.2) := by
  induction l with
  | nil => simp [GameTheoryEngine.insertDesc]
  | cons y ys ih =>
    rcases List.pairwise_cons.mp hl with ⟨hy, hys⟩
    simp only [GameTheoryEngine.insertDesc]
    by_cases h : x.2 < y.2
    · rw [if_pos h]
      refine List.pairwise_cons.mpr ⟨?_, ih hys⟩
      intro z hz
      rcases (mem_insertDesc x z ys).mp hz with rfl | hzy
      · exact le_of_lt h
      · exact hy z hzy
    · rw [if_neg h]
      refine List.pairwise_cons.mpr ⟨?_, hl⟩
      intro z hz
      rcases List.mem_cons.mp hz with rfl | hzy
      · exact not_lt.mp h
      · exact le_trans (hy z hzy) (not_lt.mp h)

/-- Helper: `sortDesc` output is descending by score. -/
lemma sortDesc_pairwise (l : List (String × ℚ)) :
    (GameTheoryEngine.sortDesc l).Pairwise (fun a b => b.2 ≤ a.2) := by
  induction l with
  | nil => simp [GameTheoryEngine.sortDesc]
  | cons x xs ih => exact pairwise_insertDesc x _ ih

/-- Helper: stable insertion puts `x` at the head of its own score class and
leaves every score class otherwise untouched. -/
lemma filter_insertDesc (x : String × ℚ) (l : List (String × ℚ)) (c : ℚ) :
    (GameTheoryEngine.insertDesc x l).filter (fun y => y.2 == c) =
      if x.2 = c then x :: l.filter (fun y => y.2 == c)
      else l.filter (fun y => y.2 == c) := by
  induction l with
  | nil =>
    simp only [GameTheoryEngine.insertDesc]
    by_cases h : x.2 = c
    · simp [List.filter_cons, h]
    · simp [List.filter_cons, h]
  | cons y ys ih =>
    simp only [GameTheoryEngine.insertDesc]
    by_cases h : x.2 < y.2
    · rw [if_pos h, List.filter_cons]
      by_cases hy : y.2 = c
      · have hx : ¬ x.2 = c := fun hc => absurd h (by rw [hc, hy]; exact lt_irrefl c)
        simp [hy, hx, ih, List.filter_cons]
      · simp [hy, ih, List.filter_cons]
    · rw [if_neg h]
      by_cases hx : x.2 = c
      · by_cases hy : y.2 = c
        · simp [List.filter_cons, hx, hy]
        · simp [List.filter_cons, hx, hy]
      · by_cases hy : y.2 = c
        · simp [List.filter_cons, hx, hy]
        · simp [List.filter_cons, hx, hy]

/-- Helper: the stable sort leaves each score class in its original order. -/
lemma filter_sortDesc (l : List (String × ℚ)) (c : ℚ) :
    (GameTheoryEngine.sortDesc l).filter (fun y => y.2 == c) =
      l.filter (fun y => y.2 == c) := by
  induction l with
  | nil => rfl
  | cons x xs ih =>
    simp only [GameTheoryEngine.sortDesc, filter_insertDesc, ih, List.filter_cons]
    by_cases h : x.2 = c
    · simp [h]
    · simp [h]

/-- C6: with distinct configured strategy names and every scheduled match
succeeding, the round-robin schedule contains exactly `repeats * n²` matches —
one per repeat for every ordered pair (self-play and both seat orders
included) — the tournament returns a `total_scores` dict with exactly `n`
entries, and each strategy's total is exactly the sum of the row-player
(first-listed) scores of the scheduled matches in which it is the row player. -/
theorem round_robin_match_count_and_row_totals
    (e : GameTheoryEngine) (game_name : String) (rounds_per_match repeats : Int)
    (noise : ℚ) (draws : ℕ → ℚ)
    (hnodup : e.strategy_names.Nodup)
    (hsucc : ∀ pr ∈ List.enumFrom 0 (schedule e.strategy_names repeats.toNat),
      (e.play_match pr.2.1 pr.2.2 game_name rounds_per_match noise
        (GameTheoryEngine.streamFor draws rounds_per_match pr.1)).isOk = true) :
    (schedule e.strategy_names repeats.toNat).length =
      repeats.toNat * e.strategy_names.length ^ 2
    ∧ (∀ a ∈ e.strategy_names, ∀ b ∈ e.strategy_names,
        (schedule e.strategy_names repeats.toNat).count (a, b) = repeats.toNat)
    ∧ ∃ res, e.round_robin_tournament game_name rounds_per_match repeats noise draws =
          .ok res
        ∧ res.total_scores.length = e.strategy_names.length
        ∧ ∀ s ∈ e.strategy_names,
            dlookup res.total_scores s =
              some (e.rowSum game_name rounds_per_match noise draws
                (schedule e.strategy_names repeats.toNat) 0 s) := by
  refine ⟨length_schedule _ _, fun a ha b hb => count_schedule _ _ a b hnodup ha hb, ?_⟩
  obtain ⟨final, hfin, hlook⟩ := run_schedule_spec e game_name rounds_per_match noise draws
    (schedule e.strategy_names repeats.toNat) 0 (dictFromKeys e.strategy_names) hsucc
  refine ⟨⟨final, GameTheoryEngine.sortDesc final⟩, ?_, ?_, ?_⟩
  · simp only [GameTheoryEngine.round_robin_tournament, hfin]
  · have hkeys := run_schedule_keys e game_name rounds_per_match noise draws _ 0 _ final hfin
    rw [dictFromKeys_eq _ hnodup] at hkeys
    have hlen := congrArg List.length hkeys
    simpa using hlen
  · intro s hs
    have h0 : dlookup (dictFromKeys e.strategy_names) s = some 0 := by
      rw [dictFromKeys_eq _ hnodup]
      exact dlookup_map_zero _ s hs
    have hv := hlook s 0 h0
    simpa using hv

/-- C6 witness: the C6 theorem at the concrete four-strategy engine `E1`,
one repeat, one round per match, zero noise: 16 scheduled matches, 4 score
entries. -/
theorem round_robin_match_count_and_row_totals_witness :
    (schedule E1.strategy_names (1 : Int).toNat).length =
      (1 : Int).toNat * E1.strategy_names.length ^ 2
    ∧ (schedule E1.strategy_names (1 : Int).toNat).count ("TitForTat", "GrimTrigger") =
        (1 : Int).toNat
    ∧ (E1.round_robin_tournament "PD" 1 1 0 (fun _ => 1)).isOk = true := by
  have h := round_robin_match_count_and_row_totals E1 "PD" 1 1 0 (fun _ => 1)
    (by decide) (by decide)
  obtain ⟨res, hok, -, -⟩ := h.2.2
  exact ⟨h.1, h.2.1 "TitForTat" (by decide) "GrimTrigger" (by decide),
    by ( rw [hok]; rfl )⟩

/-- C7: whatever total scores a successful tournament accumulates, the
returned ranking is the stable descending sort of the `total_scores` items:
scores are non-increasing along the ranking, each score class keeps exactly
its `total_scores` order, and (for distinct configured names) the
`total_scores` items themselves are in original `strategy_names` order — so
ties preserve the original strategy-list order. -/
theorem round_robin_ranking_sorted_and_stable
    (e : GameTheoryEngine) (game_name : String) (rounds_per_match repeats : Int)
    (noise : ℚ) (draws : ℕ → ℚ) (res : GameTheoryEngine.TournamentResult)
    (hok : e.round_robin_tournament game_name rounds_per_match repeats noise draws =
      .ok res)
    (hnodup : e.strategy_names.Nodup) :
    res.ranking.Pairwise (fun x y => y.2 ≤ x.2)
    ∧ (∀ c : ℚ, res.ranking.filter (fun x => x.2 == c) =
        res.total_scores.filter (fun x => x.2 == c))
    ∧ res.total_scores.map Prod.fst = e.strategy_names := by
  cases hrs : e.run_schedule game_name rounds_per_match noise draws
      (schedule e.strategy_names repeats.toNat) 0 (dictFromKeys e.strategy_names) with
  | error err =>
    exfalso
    unfold GameTheoryEngine.round_robin_tournament at hok
    rw [hrs] at hok
    simp at hok
  | ok total =>
    unfold GameTheoryEngine.round_robin_tournament at hok
    rw [hrs] at hok
    simp only [Except.ok.injEq] at hok
    have hres : res = ⟨total, GameTheoryEngine.sortDesc total⟩ := hok.symm
    subst hres
    refine ⟨sortDesc_pairwise total, fun c => filter_sortDesc total c, ?_⟩
    have hkeys := run_schedule_keys e game_name rounds_per_match noise draws _ 0 _ total hrs
    rw [dictFromKeys_eq _ hnodup] at hkeys
    simpa [Function.comp_def] using hkeys

/-- C7 witness: the C7 theorem at the concrete engine `E1` (one repeat, one
round, zero noise), with the score class of the TitForTat/GrimTrigger tie
instantiated. -/
theorem round_robin_ranking_sorted_and_stable_witness :
    (RES1.ranking.Pairwise (fun x y => y.2 ≤ x.2))
    ∧ RES1.ranking.filter (fun x => x.2 == ratOfInt 9) =
        RES1.total_scores.filter (fun x => x.2 == ratOfInt 9)
    ∧ RES1.total_scores.map Prod.fst = E1.strategy_names := by
  have h := round_robin_ranking_sorted_and_stable E1 "PD" 1 1 0 (fun _ => 1) RES1
    (by with_unfolding_all rfl) (by decide)
  exact ⟨h.1, h.2.1 (ratOfInt 9), h.2.2⟩

/-- Helper: a dict comprehension over pairwise-distinct keys is just the pair
list itself. -/
lemma dictOfPairs_eq (ps : List (String × ℚ)) (h : (ps.map Prod.fst).Nodup) :
    dictOfPairs ps = ps := by
  suffices H : ∀ (qs : List (String × ℚ)) (d : List (String × ℚ)),
      (qs.map Prod.fst).Nodup → (∀ k ∈ qs.map Prod.fst, k ∉ d.map Prod.fst) →
      qs.foldl (fun d p => dictInsert d p.1 p.2) d = d ++ qs by
    simpa [dictOfPairs] using H ps [] h (by simp)
  intro qs
  induction qs with
  | nil => intro d _ _; simp
  | cons p t ih =>
    intro d hnd hd
    have hp : p.1 ∉ d.map Prod.fst := hd p.1 (by simp)
    have hcontains : (d.map Prod.fst).contains p.1 = false := by simpa using hp
    have step : dictInsert d p.1 p.2 = d ++ [p] := by
      unfold dictInsert
      rw [hcontains]
      simp
    rw [List.foldl_cons, step, ih (d ++ [p]) (List.nodup_cons.mp hnd).2]
    · simp
    · intro k hk
      simp only [List.map_append, List.mem_append]
      rintro (hkd | hkp)
      · exact hd k (by simp [hk]) hkd
      · simp at hkp
        exact (List.nodup_cons.mp hnd).1 (hkp ▸ hk)

/-- Helper: sums of pointwise sums of naturals over a common index list. -/
lemma sum_map_add_nat (l : List ℕ) (f g : ℕ → ℕ) :
    (l.map (fun x => f x + g x)).sum = (l.map f).sum + (l.map g).sum := by
  induction l with
  | nil => simp
  | cons a t ih =>
    simp [ih]
    omega

/-- Helper: the indicator of a value at or beyond the range sums to 0. -/
lemma sum_indicator_zero (a n : ℕ) (h : n ≤ a) :
    ((List.range n).map (fun i => if (a == i) = true then 1 else 0)).sum = 0 := by
  induction n with
  | zero => simp
  | succ m ih =>
    have hm : ¬ (a == m) = true := by
      simp only [beq_iff_eq]
      omega
    rw [List.range_succ]
    simp only [List.map_append, List.sum_append, List.map_cons, List.map_nil,
      List.sum_cons, List.sum_nil, hm]
    rw [ih (by omega)]
    simp

/-- Helper: the indicator of a value inside the range sums to 1. -/
lemma sum_indicator_one (a n : ℕ) (h : a < n) :
    ((List.range n).map (fun i => if (a == i) = true then 1 else 0)).sum = 1 := by
  induction n with
  | zero => omega
  | succ m ih =>
    rw [List.range_succ]
    simp only [List.map_append, List.sum_append, List.map_cons, List.map_nil,
      List.sum_cons, List.sum_nil]
    by_cases ha : a = m
    · rw [sum_indicator_zero a m (by omega)]
      simp [ha]
    · rw [ih (by omega)]
      simp [ha]

/-- Helper: when every element of `pop` is a valid index below `n`, the
per-index occurrence counts over `range n` sum to the population size. -/
lemma sum_range_count (pop : List ℕ) (n : ℕ) (h : ∀ g ∈ pop, g < n) :
    ((List.range n).map (fun i => pop.count i)).sum = pop.length := by
  induction pop with
  | nil => simp
  | cons a t ih =>
    have ha : a < n := h a (by simp)
    have ht : ∀ g ∈ t, g < n := fun g hg => h g (by simp [hg])
    have hcount : ∀ i, (a :: t).count i = t.count i + if (a == i) = true then 1 else 0 :=
      fun i => List.count_cons i a t
    calc ((List.range n).map (fun i => (a :: t).count i)).sum
        = ((List.range n).map (fun i => t.count i + if (a == i) = true then 1 else 0)).sum := by
          simp only [hcount]
      _ = ((List.range n).map (fun i => t.count i)).sum
          + ((List.range n).map (fun i => if (a == i) = true then 1 else 0)).sum :=
          sum_map_add_nat _ _ _
      _ = t.length + 1 := by rw [ih ht, sum_indicator_one a n ha]
      _ = (a :: t).length := by simp

/-- Helper: a common divisor factors out of a list sum of rationals. -/
lemma sum_map_div_rat (l : List ℕ) (f : ℕ → ℚ) (d : ℚ) :
    (l.map (fun i => f i / d)).sum = (l.map f).sum / d := by
  induction l with
  | nil => simp
  | cons a t ih => simp [ih, add_div]

/-- C9: for a strategy list with distinct names and a population of genes that
are all valid indices into it, the reported per-generation frequency values
(occurrence count of each strategy index divided by the population size) sum
to exactly 1. -/
theorem freq_values_sum_to_one (strat_list : List String) (idx_counts : List ℕ)
    (pop_size : ℕ)
    (hnodup : strat_list.Nodup) (hlen : idx_counts.length = pop_size)
    (hpos : 0 < pop_size)
    (hvalid : ∀ g ∈ idx_counts, g < strat_list.length) :
    ((freq_of strat_list idx_counts pop_size).map Prod.snd).sum = 1 := by
  have hkeys : ((List.enumFrom 0 strat_list).map
      (fun p => (p.2, (idx_counts.count p.1 : ℚ) / (pop_size : ℚ)))).map Prod.fst =
      strat_list := by
    rw [List.map_map]
    have : (Prod.fst ∘ fun p : ℕ × String =>
        (p.2, (idx_counts.count p.1 : ℚ) / (pop_size : ℚ))) = Prod.snd := by
      funext p
      rfl
    rw [this, List.enumFrom_map_snd]
  unfold freq_of
  rw [dictOfPairs_eq _ (by rw [hkeys]; exact hnodup)]
  rw [List.map_map]
  have hsnd : (Prod.snd ∘ fun p : ℕ × String =>
      (p.2, (idx_counts.count p.1 : ℚ) / (pop_size : ℚ))) =
      (fun p : ℕ × String => (idx_counts.count p.1 : ℚ) / (pop_size : ℚ)) := by
    funext p
    rfl
  rw [hsnd]
  have henum : (List.enumFrom 0 strat_list).map
      (fun p : ℕ × String => (idx_counts.count p.1 : ℚ) / (pop_size : ℚ)) =
      (List.range strat_list.length).map
        (fun i => (idx_counts.count i : ℚ) / (pop_size : ℚ)) := by
    rw [show (fun p : ℕ × String => (idx_counts.count p.1 : ℚ) / (pop_size : ℚ)) =
      ((fun i => (idx_counts.count i : ℚ) / (pop_size : ℚ)) ∘ Prod.fst) from rfl]
    rw [← List.map_map, List.enumFrom_map_fst, List.range_eq_range']
  rw [henum, sum_map_div_rat]
  have hcast : ((List.range strat_list.length).map
      (fun i => (idx_counts.count i : ℚ))).sum =
      (((List.range strat_list.length).map (fun i => idx_counts.count i)).sum : ℚ) := by
    rw [show (fun i => (idx_counts.count i : ℚ)) =
      ((fun n : ℕ => (n : ℚ)) ∘ fun i => idx_counts.count i) from rfl]
    rw [← List.map_map]
    exact (Nat.cast_list_sum _).symm
  rw [hcast, sum_range_count idx_counts strat_list.length hvalid, hlen]
  exact div_self (by exact_mod_cast Nat.pos_iff_ne_zero.mp hpos)

/-- C9 witness: the C9 theorem at a concrete two-strategy list and a
population of four valid genes. -/
theorem freq_values_sum_to_one_witness :
    ((freq_of ["AlwaysCooperate", "AlwaysDefect"] [0, 1, 1, 0] 4).map Prod.snd).sum = 1 :=
  freq_values_sum_to_one ["AlwaysCooperate", "AlwaysDefect"] [0, 1, 1, 0] 4
    (by decide) (by decide) (by decide) (by decide)

end EvoArena
